import Mathlib

/-!
Verification of `itk_transformer_nlp/transformer_qa.py`, a batched
extractive question-answering inference script.

The embedding models
* PyTorch tensors of shape `(batch_size, sequence_length)` as
  `List (List Int)` (scores, which are floating-point logits in the
  source, are modelled as integers: only their ordering matters to the
  span-extraction logic);
* Python strings as `List Char`;
* the Hugging Face dataset as a list of rows, a row being an
  association list from column names to text values;
* the pretrained model, and the tokenizer's per-example encoding and
  per-sequence decoding, as opaque function parameters, following the
  source's own scoping (the model and tokenizer are external
  capability providers).

Each Python function of the module is translated to a Lean definition
of the same name.
-/

namespace TransformerQA

/-! ## torch primitives used by extract_answer -/

/-- Helper for `argmax`: scans the remaining list, keeping the current
best value and its index; a strictly greater value replaces the best,
so ties resolve to the earliest index. -/
def argmaxFrom : List Int → Int → Nat → Nat → Nat
  | [], _, _, bestIdx => bestIdx
  | x :: rest, best, i, bestIdx =>
    if best < x then argmaxFrom rest x (i + 1) i
    else argmaxFrom rest best (i + 1) bestIdx

/-- Embeds `torch.argmax` applied to one row of scores: the index of the
first maximal element (0 for an empty row). -/
def argmax : List Int → Nat
  | [] => 0
  | x :: rest => argmaxFrom rest x 1 0

/-- Embeds `torch.arange(n)`: the list `0, 1, ..., n-1`. -/
def arange (n : Nat) : List Nat := List.range n

/-! ## extract_answer (transformer_qa.py, lines 116-143) -/

/-- Embeds `extract_answer`: computes per-row argmaxes of the start and
end scores, builds the boolean mask `answer_start <= arange(seq_length)
<= answer_end` (broadcast over the batch dimension, exactly as
`torch.arange(seq_length).repeat(batch_size, 1)` compared against the
`(batch_size, 1)`-shaped argmax tensors), and selects `input_ids` where
the mask holds and `pad_token_id` elsewhere. -/
def extract_answer (input_ids start_scores end_scores : List (List Int))
    (pad_token_id : Int) : List (List Int) :=
  let batch_size := input_ids.length
  let seq_length := (input_ids.headD []).length
  let answer_start := start_scores.map argmax
  let answer_end := end_scores.map argmax
  let mask := List.zipWith
    (fun se row => row.map (fun i => decide (se.1 ≤ i) && decide (i ≤ se.2)))
    (answer_start.zip answer_end)
    (List.replicate batch_size (arange seq_length))
  List.zipWith
    (fun mrow idrow => List.zipWith (fun m x => if m then x else pad_token_id) mrow idrow)
    mask input_ids

/-! ## Python string primitives -/

/-- Test that `p` is an initial segment of `s` (a regex token matching
at the current scan position). -/
def startsWithList : List Char → List Char → Bool
  | [], _ => true
  | _ :: _, [] => false
  | p :: ps, c :: rest => p == c && startsWithList ps rest

/-- Decidable substring-occurrence test: `containsSub pat s` holds when
`pat` occurs contiguously inside `s`. -/
def containsSub : List Char → List Char → Bool
  | pat, [] => pat.isEmpty
  | pat, c :: rest => startsWithList pat (c :: rest) || containsSub pat rest

/-- Embeds one pass of `re.sub(pattern, "", s)` for an alternation of
literal token strings (the source compiles
`"|".join([cls_token, pad_token, sep_token])`): scanning left to
right, at each position the first alternative that matches is removed
and scanning resumes right after the removed occurrence (an empty
alternative is skipped; the special tokens are non-empty strings). -/
def subAlt (pats : List (List Char)) : List Char → List Char
  | [] => []
  | c :: rest =>
    match pats.find? (fun p => startsWithList p (c :: rest)) with
    | some (_ :: ps) => subAlt pats (rest.drop ps.length)
    | _ => c :: subAlt pats rest
termination_by s => s.length
decreasing_by
  · simp [List.length_drop]
    omega
  · simp

/-- Characters stripped by Python's `str.strip()` (the ASCII
whitespace characters). -/
def isPySpace (c : Char) : Bool :=
  c == ' ' || c == '\t' || c == '\n' || c == '\r' || c == '\x0b' || c == '\x0c'

/-- Embeds Python's `str.strip()`: removes leading and trailing
whitespace. -/
def pyStrip (s : List Char) : List Char :=
  ((s.dropWhile isPySpace).reverse.dropWhile isPySpace).reverse

/-- Embeds Python's `str.split(sep)` for a separator string: the fields
between non-overlapping leftmost occurrences of `sep` (an empty
separator, which Python rejects with an error, splits nothing here; the
sep token used by the script is non-empty). -/
def splitOnStr (sep : List Char) : List Char → List (List Char)
  | [] => [[]]
  | c :: rest =>
    if h : sep ≠ [] ∧ startsWithList sep (c :: rest) then
      [] :: splitOnStr sep ((c :: rest).drop sep.length)
    else
      match splitOnStr sep rest with
      | [] => [[c]]
      | r :: rs => (c :: r) :: rs
termination_by s => s.length
decreasing_by
  · have : 0 < sep.length := List.length_pos.mpr h.1
    simp [List.length_drop]
    omega
  · simp

/-! ## clean_decoded_batch (transformer_qa.py, lines 161-179) -/

/-- Cleaning applied to one decoded subsequence inside
`clean_decoded_batch`: `pattern.sub("", subseq).strip()`. -/
def cleanOne (pats : List (List Char)) (s : List Char) : List Char :=
  pyStrip (subAlt pats s)

/-- Embeds `clean_decoded_batch`: for each inner tuple, each
subsequence is cleaned and kept only when the cleaned string is
non-empty (the walrus/truthiness filter of the source's generator
expression). -/
def clean_decoded_batch (decoded_batch : List (List (List Char)))
    (pats : List (List Char)) : List (List (List Char)) :=
  decoded_batch.map (fun seq =>
    seq.filterMap (fun subseq =>
      let cleaned := cleanOne pats subseq
      if cleaned.isEmpty then none else some cleaned))

/-! ## decode_bart_input and get_predictions (lines 146-158, 182-212) -/

/-- Model of the pretrained BART tokenizer's decoding side: the special
token strings, the pad token id, and an opaque per-sequence decoding
function (`batch_decode` maps it over the rows of a batch). -/
structure BartTok where
  pad_token_id : Int
  cls_token : List Char
  pad_token : List Char
  sep_token : List Char
  decode : List Int → List Char

/-- Embeds `decode_bart_input`: batch-decodes the token-id rows and
splits each decoded string on the tokenizer's sep token. -/
def decode_bart_input (input_ids : List (List Int)) (tok : BartTok) :
    List (List (List Char)) :=
  (input_ids.map tok.decode).map (fun seq => splitOnStr tok.sep_token seq)

/-- Model of one `DataLoader` batch as consumed by `get_predictions`: a
dict from column names to `(batch_size, sequence_length)` tensors. -/
abbrev Batch := List (String × List (List Int))

/-- Dictionary access `batch[key]` on a model batch. -/
def batchGet (batch : Batch) (key : String) : List (List Int) :=
  match batch.find? (fun kv => kv.1 == key) with
  | some kv => kv.2
  | none => []

/-- Embeds `get_predictions`, with the model as an opaque function from
a batch to the pair of start and end logit tensors: for each batch, the
answer ids are extracted, inputs and answers are decoded and cleaned,
and the generator yields the concatenation of each cleaned input tuple
with its cleaned answer tuple; the generator is modelled as the list of
yielded tuples. -/
def get_predictions (model : Batch → List (List Int) × List (List Int))
    (data_loader : List Batch) (tok : BartTok) (input_ids_name : String) :
    List (List (List Char)) :=
  let pad_id := tok.pad_token_id
  let pats := [tok.cls_token, tok.pad_token, tok.sep_token]
  (data_loader.map (fun batch =>
    let logits := model batch
    let input_ids := batchGet batch input_ids_name
    let answers := extract_answer input_ids logits.1 logits.2 pad_id
    let decoded_inputs := clean_decoded_batch (decode_bart_input input_ids tok) pats
    let decoded_answers := clean_decoded_batch (decode_bart_input answers tok) pats
    List.zipWith (fun di da => di ++ da) decoded_inputs decoded_answers)).flatten

/-! ## Dataset loading and tokenization (lines 34-44, 57-70, 73-113) -/

/-- Model of a dataset row: an association list from column names to
text values. -/
abbrev Row := List (String × List Char)

/-- Column access on a dataset row. -/
def rowGet (row : Row) (key : String) : List Char :=
  match row.find? (fun kv => kv.1 == key) with
  | some kv => kv.2
  | none => []

/-- Model of the pretrained tokenizer's encoding side: an opaque
per-example encoding of the example's text fields to token ids, the
keys a tokenizer call returns (`tokenizer("Dummy text").keys()`, for
BART `["input_ids", "attention_mask"]`), and the pad token id. -/
structure HFTokenizer where
  encode : List (List Char) → List Int
  encodingKeys : List String
  pad_token_id : Int

/-- Row produced by tokenization: the token-id sequence and its
attention mask. -/
abbrev TokRow := List Int × List Nat

/-- Model of one tokenizer call on a chunk of examples with
`padding=True, truncation=True` and `model_max_length = maxLen`
(documented Hugging Face semantics: each encoding is truncated to at
most `maxLen` tokens, then right-padded with the pad token up to the
longest sequence of the chunk; the attention mask is 1 on real tokens
and 0 on padding). -/
def tokenizeChunk (tok : HFTokenizer) (maxLen : Nat)
    (chunkTexts : List (List (List Char))) : List TokRow :=
  let truncated := chunkTexts.map (fun t => (tok.encode t).take maxLen)
  let longest := (truncated.map List.length).foldr Nat.max 0
  truncated.map (fun t =>
    (t ++ List.replicate (longest - t.length) tok.pad_token_id,
     List.replicate t.length 1 ++ List.replicate (longest - t.length) 0))

/-- Consecutive chunks of size `k` of a list, as formed both by
`Dataset.map(..., batched=True, batch_size=k)` and by
`DataLoader(dataset, batch_size=k)` over the mapped dataset (a chunk
size of 0, which `check_positive_int` rejects at the command line,
degenerates to a single chunk). -/
def chunkList {α : Type} (k : Nat) : List α → List (List α)
  | [] => []
  | x :: rest =>
    match k with
    | 0 => [x :: rest]
    | k' + 1 => (x :: rest.take k') :: chunkList k (rest.drop k')
termination_by s => s.length
decreasing_by
  simp [List.length_drop]
  omega

/-- Embeds `tokenize_dataset`: checks the text column names against the
keys the tokenizer produces (`ValueError`, modelled as `Except.error`,
on a clash), then maps the batched tokenization over the dataset in
chunks of `batch_size` and wraps the tokenized rows in a `DataLoader`
batching them with the same `batch_size`. -/
def tokenize_dataset (dataset : List Row) (text_col_names : List String)
    (tok : HFTokenizer) (batch_size : Nat) (max_seq_length : Nat) :
    Except String (List (List TokRow)) :=
  if text_col_names.any (fun c => tok.encodingKeys.contains c) then
    Except.error "Invalid text column names"
  else
    Except.ok (chunkList batch_size
      (((chunkList batch_size dataset).map (fun chunk =>
        tokenizeChunk tok max_seq_length
          (chunk.map (fun row => text_col_names.map (fun c => rowGet row c))))).flatten))

/-! ## The dataset command-line argument (lines 34-44, 57-70) -/

/-- Argument record of a call to `datasets.load_dataset`: the first
positional argument (a builder name or a path) and the keyword
arguments the script passes. -/
structure LoadDatasetCall where
  path : String
  data_files : List String
  split : Option String
  deriving DecidableEq

/-- Embeds `load_jsonl_dataset` (lines 34-44): calls
`load_dataset("json", data_files=[dataset_path], split="train")`. -/
def load_jsonl_dataset (dataset_path : String) : LoadDatasetCall :=
  { path := "json", data_files := [dataset_path], split := some "train" }

/-- Embeds the conversion the argument parser applies to the positional
`dataset` argument (line 60): `parser.add_argument("dataset",
type=load_dataset, ...)` applies the library function `load_dataset`
itself to the command-line string, so the call is
`load_dataset(dataset_path)` with no `data_files` and no `split`. -/
def qa_args_dataset_conversion (dataset_path : String) : LoadDatasetCall :=
  { path := dataset_path, data_files := [], split := none }

end TransformerQA

namespace TransformerQA

/-! ## getD lemmas for list-encoded tensors -/

theorem getD_zipWith {α β γ : Type} (f : α → β → γ) (as : List α) (bs : List β)
    (i : Nat) (d : γ) (da : α) (db : β) (ha : i < as.length) (hb : i < bs.length) :
    (List.zipWith f as bs).getD i d = f (as.getD i da) (bs.getD i db) := by
  rw [List.getD_eq_getElem _ _ (by simp [List.length_zipWith]; omega),
    List.getD_eq_getElem _ _ ha, List.getD_eq_getElem _ _ hb, List.getElem_zipWith]

theorem getD_map {α β : Type} (f : α → β) (l : List α) (i : Nat) (d : β) (dl : α)
    (h : i < l.length) : (l.map f).getD i d = f (l.getD i dl) := by
  rw [List.getD_eq_getElem _ _ (by simpa), List.getD_eq_getElem _ _ h, List.getElem_map]

theorem getD_zip {α β : Type} (as : List α) (bs : List β) (i : Nat) (da : α) (db : β)
    (ha : i < as.length) (hb : i < bs.length) :
    (as.zip bs).getD i (da, db) = (as.getD i da, bs.getD i db) := by
  rw [List.getD_eq_getElem _ _ (by simp [List.length_zip]; omega),
    List.getD_eq_getElem _ _ ha, List.getD_eq_getElem _ _ hb, List.getElem_zip]

theorem getD_replicate {α : Type} (n : Nat) (a : α) (i : Nat) (d : α) (h : i < n) :
    (List.replicate n a).getD i d = a := by
  rw [List.getD_eq_getElem _ _ (by simpa), List.getElem_replicate]

theorem getD_range (n i : Nat) (d : Nat) (h : i < n) : (List.range n).getD i d = i := by
  rw [List.getD_eq_getElem _ _ (by simpa), List.getElem_range]

/-! ## Shape and pointwise characterisation of extract_answer -/

/-- Batch dimension of the output of `extract_answer`: one row per input
row, provided the score tensors have the same batch dimension. -/
theorem extract_answer_length (ids ss es : List (List Int)) (pad : Int)
    (hs : ss.length = ids.length) (he : es.length = ids.length) :
    (extract_answer ids ss es pad).length = ids.length := by
  simp [extract_answer, List.length_zipWith]
  omega

/-- Pointwise value of `extract_answer`: entry `(b, i)` keeps
`input_ids` inside the argmax span and is `pad` outside it. -/
theorem extract_answer_getD (ids ss es : List (List Int)) (pad : Int) (b i : Nat)
    (hs : ss.length = ids.length) (he : es.length = ids.length)
    (hb : b < ids.length) (hi : i < (ids.headD []).length)
    (hrow : i < (ids.getD b []).length) :
    ((extract_answer ids ss es pad).getD b []).getD i 0 =
      if argmax (ss.getD b []) ≤ i ∧ i ≤ argmax (es.getD b []) then
        (ids.getD b []).getD i 0
      else pad := by
  have hbs : b < ss.length := by omega
  have hbe : b < es.length := by omega
  rw [show extract_answer ids ss es pad =
      List.zipWith
        (fun mrow idrow => List.zipWith (fun m x => if m then x else pad) mrow idrow)
        (List.zipWith
          (fun se row => row.map (fun i => decide (se.1 ≤ i) && decide (i ≤ se.2)))
          (((ss.map argmax).zip (es.map argmax)))
          (List.replicate ids.length (arange (ids.headD []).length)))
        ids from rfl]
  rw [getD_zipWith _ _ _ b [] [] []
      (by simp [List.length_zipWith, List.length_zip]; omega) hb]
  rw [getD_zipWith _ _ _ b ([] : List Bool) ((0 : Nat), (0 : Nat)) []
      (by simp [List.length_zip]; omega) (by simpa)]
  rw [getD_zip _ _ b 0 0 (by simpa) (by simpa)]
  rw [getD_map argmax _ b 0 [] hbs, getD_map argmax _ b 0 [] hbe]
  rw [getD_replicate _ _ b [] hb]
  rw [getD_zipWith _ _ _ i 0 false 0 (by simpa [arange] using hi) hrow]
  rw [getD_map _ _ i false 0 (by simpa [arange] using hi)]
  rw [show arange (ids.headD []).length = List.range (ids.headD []).length from rfl]
  rw [getD_range _ i 0 hi]
  by_cases h1 : argmax (ss.getD b []) ≤ i <;> by_cases h2 : i ≤ argmax (es.getD b []) <;>
    simp [h1, h2]

/-- Length of row `b` of the output of `extract_answer`: the minimum of
the mask row length (taken from the head row of `input_ids`) and the
length of row `b` of `input_ids`. -/
theorem extract_answer_row_len (ids ss es : List (List Int)) (pad : Int) (b : Nat)
    (hs : ss.length = ids.length) (he : es.length = ids.length) (hb : b < ids.length) :
    ((extract_answer ids ss es pad).getD b []).length =
      min (ids.headD []).length (ids.getD b []).length := by
  rw [show extract_answer ids ss es pad =
      List.zipWith
        (fun mrow idrow => List.zipWith (fun m x => if m then x else pad) mrow idrow)
        (List.zipWith
          (fun se row => row.map (fun i => decide (se.1 ≤ i) && decide (i ≤ se.2)))
          (((ss.map argmax).zip (es.map argmax)))
          (List.replicate ids.length (arange (ids.headD []).length)))
        ids from rfl]
  rw [getD_zipWith _ _ _ b [] [] []
      (by simp [List.length_zipWith, List.length_zip]; omega) hb]
  rw [getD_zipWith _ _ _ b ([] : List Bool) ((0 : Nat), (0 : Nat)) []
      (by simp [List.length_zip]; omega) (by simpa)]
  rw [getD_replicate _ _ b [] hb]
  simp [List.length_zipWith, arange]

/-- Under rectangularity, the head row of a nonempty list of rows has
the common row length. -/
theorem headD_length_of_rect (ids : List (List Int)) (S : Nat)
    (hrect : ∀ row ∈ ids, row.length = S) (hne : ids ≠ []) :
    (ids.headD []).length = S := by
  cases ids with
  | nil => exact absurd rfl hne
  | cons x t => exact hrect x (by simp)

/-- Row `b` of a rectangular list of rows has the common row length. -/
theorem getD_length_of_rect (ids : List (List Int)) (S : Nat) (b : Nat)
    (hrect : ∀ row ∈ ids, row.length = S) (hb : b < ids.length) :
    (ids.getD b []).length = S := by
  rw [List.getD_eq_getElem _ _ hb]
  exact hrect _ (List.getElem_mem _)

/-- C1: for every `input_ids` tensor of shape `(batch_size,
sequence_length)`, `start_scores` and `end_scores` tensors of the same
shape, and `pad_token_id`, `extract_answer` returns a tensor of the
same shape whose entry at row `b`, position `i` equals `input_ids[b, i]`
when `argmax(start_scores[b]) <= i <= argmax(end_scores[b])` and equals
`pad_token_id` otherwise. -/
theorem extract_answer_spec (ids ss es : List (List Int)) (pad : Int) (B S : Nat)
    (hB : ids.length = B) (hidsS : ∀ row ∈ ids, row.length = S)
    (hsB : ss.length = B) (hssS : ∀ row ∈ ss, row.length = S)
    (heB : es.length = B) (hesS : ∀ row ∈ es, row.length = S) :
    (extract_answer ids ss es pad).length = B ∧
    (∀ row ∈ extract_answer ids ss es pad, row.length = S) ∧
    (∀ b, b < B → ∀ i, i < S →
      ((extract_answer ids ss es pad).getD b []).getD i 0 =
        if argmax (ss.getD b []) ≤ i ∧ i ≤ argmax (es.getD b []) then
          (ids.getD b []).getD i 0
        else pad) := by
  have hs : ss.length = ids.length := by omega
  have he : es.length = ids.length := by omega
  have hlen := extract_answer_length ids ss es pad hs he
  refine ⟨by omega, ?_, ?_⟩
  · intro row hmem
    rw [List.mem_iff_getElem] at hmem
    obtain ⟨j, hj, hrow⟩ := hmem
    have hjB : j < ids.length := by omega
    have hne : ids ≠ [] := by
      intro hnil
      rw [hnil] at hjB
      simp at hjB
    have := extract_answer_row_len ids ss es pad j hs he hjB
    rw [List.getD_eq_getElem _ _ hj, hrow] at this
    rw [this, headD_length_of_rect ids S hidsS hne,
      getD_length_of_rect ids S j hidsS hjB]
    omega
  · intro b hbB i hiS
    have hb : b < ids.length := by omega
    have hne : ids ≠ [] := by
      intro hnil
      rw [hnil] at hb
      simp at hb
    exact extract_answer_getD ids ss es pad b i hs he hb
      (by rw [headD_length_of_rect ids S hidsS hne]; exact hiS)
      (by rw [getD_length_of_rect ids S b hidsS hb]; exact hiS)

/-- Witness for C1 at a concrete input: batch 1, sequence length 2,
start argmax 0, end argmax 1, so both tokens are kept. -/
theorem extract_answer_spec_witness :
    (extract_answer [[5, 6]] [[9, 0]] [[0, 9]] 1).length = 1 ∧
    (∀ row ∈ extract_answer [[5, 6]] [[9, 0]] [[0, 9]] 1, row.length = 2) ∧
    (∀ b, b < 1 → ∀ i, i < 2 →
      ((extract_answer [[5, 6]] [[9, 0]] [[0, 9]] 1).getD b []).getD i 0 =
        if argmax (([[9, 0]] : List (List Int)).getD b []) ≤ i ∧
            i ≤ argmax (([[0, 9]] : List (List Int)).getD b []) then
          (([[5, 6]] : List (List Int)).getD b []).getD i 0
        else 1) :=
  extract_answer_spec [[5, 6]] [[9, 0]] [[0, 9]] 1 1 2 rfl (by decide) rfl (by decide)
    rfl (by decide)

/-- C6: for every input to `extract_answer`, the positions at which the
output keeps the input token rather than the pad token form a single
contiguous (possibly empty) index interval: every row of the output is
described by one interval `[lo, hi]` inside which the input tokens are
kept and outside which the row is `pad`. -/
theorem extract_answer_contiguous (ids ss es : List (List Int)) (pad : Int) (B S : Nat)
    (hB : ids.length = B) (hidsS : ∀ row ∈ ids, row.length = S)
    (hsB : ss.length = B) (heB : es.length = B) :
    ∀ b, b < B → ∃ lo hi : Nat, ∀ i, i < S →
      ((extract_answer ids ss es pad).getD b []).getD i 0 =
        if lo ≤ i ∧ i ≤ hi then (ids.getD b []).getD i 0 else pad := by
  intro b hbB
  have hs : ss.length = ids.length := by omega
  have he : es.length = ids.length := by omega
  have hb : b < ids.length := by omega
  have hne : ids ≠ [] := by
    intro hnil
    rw [hnil] at hb
    simp at hb
  refine ⟨argmax (ss.getD b []), argmax (es.getD b []), fun i hiS => ?_⟩
  exact extract_answer_getD ids ss es pad b i hs he hb
    (by rw [headD_length_of_rect ids S hidsS hne]; exact hiS)
    (by rw [getD_length_of_rect ids S b hidsS hb]; exact hiS)

/-- Witness for C6 at a concrete input: batch 1, sequence length 3,
the kept span of row 0 is the interval from the start argmax 1 to the
end argmax 2. -/
theorem extract_answer_contiguous_witness :
    ∃ lo hi : Nat, ∀ i, i < 3 →
      ((extract_answer [[4, 5, 6]] [[0, 9, 0]] [[0, 0, 9]] 1).getD 0 []).getD i 0 =
        if lo ≤ i ∧ i ≤ hi then (([[4, 5, 6]] : List (List Int)).getD 0 []).getD i 0
        else 1 :=
  extract_answer_contiguous [[4, 5, 6]] [[0, 9, 0]] [[0, 0, 9]] 1 1 3 rfl (by decide)
    rfl rfl 0 (by decide)

/-- C8: for every batch row `b` in which `argmax(end_scores[b]) <
argmax(start_scores[b])`, `extract_answer` returns a row consisting
entirely of `pad_token_id` (an empty answer span); the function is
total, so no error is raised. -/
theorem extract_answer_empty_span (ids ss es : List (List Int)) (pad : Int) (B S : Nat)
    (hB : ids.length = B) (hidsS : ∀ row ∈ ids, row.length = S)
    (hsB : ss.length = B) (heB : es.length = B) (b : Nat) (hbB : b < B)
    (hlt : argmax (es.getD b []) < argmax (ss.getD b [])) :
    ∀ i, i < S → ((extract_answer ids ss es pad).getD b []).getD i 0 = pad := by
  intro i hiS
  have hs : ss.length = ids.length := by omega
  have he : es.length = ids.length := by omega
  have hb : b < ids.length := by omega
  have hne : ids ≠ [] := by
    intro hnil
    rw [hnil] at hb
    simp at hb
  rw [extract_answer_getD ids ss es pad b i hs he hb
    (by rw [headD_length_of_rect ids S hidsS hne]; exact hiS)
    (by rw [getD_length_of_rect ids S b hidsS hb]; exact hiS)]
  have : ¬ (argmax (ss.getD b []) ≤ i ∧ i ≤ argmax (es.getD b [])) := by omega
  rw [if_neg this]

/-- Witness for C8 at a concrete input: start argmax 1, end argmax 0,
so the row is padded with pad id 7, in particular at position 0. -/
theorem extract_answer_empty_span_witness :
    ((extract_answer [[5, 6]] [[0, 9]] [[9, 0]] 7).getD 0 []).getD 0 0 = 7 :=
  extract_answer_empty_span [[5, 6]] [[0, 9]] [[9, 0]] 7 1 2 rfl (by decide) rfl rfl 0
    (by decide) (by decide) 0 (by decide)

/-! ## Lemmas on the string primitives -/

theorem subAlt_nil (pats : List (List Char)) : subAlt pats [] = [] := by
  rw [subAlt]

theorem subAlt_cons_none (pats : List (List Char)) (c : Char) (rest : List Char)
    (h : pats.find? (fun p => startsWithList p (c :: rest)) = none) :
    subAlt pats (c :: rest) = c :: subAlt pats rest := by
  rw [subAlt, h]

/-- When no pattern token occurs in `s`, the substitution pass leaves
`s` unchanged. -/
theorem subAlt_eq_self (pats : List (List Char)) (s : List Char)
    (h : ∀ p ∈ pats, containsSub p s = false) : subAlt pats s = s := by
  induction s with
  | nil => exact subAlt_nil pats
  | cons c rest ih =>
    have hfind : pats.find? (fun p => startsWithList p (c :: rest)) = none := by
      rw [List.find?_eq_none]
      intro p hp
      have := h p hp
      simp only [containsSub, Bool.or_eq_false_iff] at this
      simp [this.1]
    rw [subAlt_cons_none pats c rest hfind]
    congr 1
    apply ih
    intro p hp
    have := h p hp
    simp only [containsSub, Bool.or_eq_false_iff] at this
    exact this.2

theorem containsSub_nil_left (s : List Char) : containsSub [] s = true := by
  induction s with
  | nil => rfl
  | cons c rest ih => simp [containsSub, startsWithList]

theorem startsWithList_append (p s v : List Char) (h : startsWithList p s = true) :
    startsWithList p (s ++ v) = true := by
  induction p generalizing s with
  | nil => simp [startsWithList]
  | cons x xs ih =>
    cases s with
    | nil => simp [startsWithList] at h
    | cons c rest =>
      simp only [startsWithList, Bool.and_eq_true] at h
      simp only [List.cons_append, startsWithList, Bool.and_eq_true]
      exact ⟨h.1, ih rest h.2⟩

theorem containsSub_append_right (p t v : List Char) (h : containsSub p t = true) :
    containsSub p (t ++ v) = true := by
  induction t with
  | nil =>
    simp only [containsSub, List.isEmpty_iff] at h
    subst h
    simpa using containsSub_nil_left v
  | cons c rest ih =>
    simp only [containsSub, Bool.or_eq_true] at h
    rcases h with h | h
    · simp only [List.cons_append, containsSub, Bool.or_eq_true]
      exact Or.inl (startsWithList_append p (c :: rest) v h)
    · simp only [List.cons_append, containsSub, Bool.or_eq_true]
      exact Or.inr (ih h)

theorem containsSub_append_left (p t u : List Char) (h : containsSub p t = true) :
    containsSub p (u ++ t) = true := by
  induction u with
  | nil => simpa
  | cons x xs ih =>
    simp only [List.cons_append, containsSub, Bool.or_eq_true]
    exact Or.inr ih

/-- The stripped string is an inner segment of the original:
`s = u ++ pyStrip s ++ v` for the stripped-off whitespace ends. -/
theorem pyStrip_decomp (s : List Char) :
    ∃ u v, s = u ++ (pyStrip s ++ v) := by
  refine ⟨s.takeWhile isPySpace,
    ((s.dropWhile isPySpace).reverse.takeWhile isPySpace).reverse, ?_⟩
  conv_lhs => rw [← List.takeWhile_append_dropWhile (p := isPySpace) (l := s)]
  congr 1
  rw [pyStrip, ← List.reverse_append, List.takeWhile_append_dropWhile,
    List.reverse_reverse]

/-- Occurrences survive stripping: a token occurring in the stripped
string occurs in the original string. -/
theorem containsSub_of_pyStrip (p s : List Char)
    (h : containsSub p (pyStrip s) = true) : containsSub p s = true := by
  obtain ⟨u, v, hs⟩ := pyStrip_decomp s
  rw [hs]
  exact containsSub_append_left _ _ _ (containsSub_append_right _ _ _ h)

/-! ## clean_decoded_batch: claims C4 and C9 -/

/-- C4 (amended): every string produced by `clean_decoded_batch` is one
pass of leftmost non-overlapping removal of the special tokens followed
by whitespace stripping; this leaves no occurrence of a special token
whenever none occurs in the input string, and in particular outputs are
token-free for token-free inputs (removal can, however, splice a new
occurrence out of the surrounding text, see the counterexample). -/
theorem clean_decoded_batch_no_meta (db : List (List (List Char)))
    (pats : List (List Char))
    (h : ∀ seq ∈ db, ∀ s ∈ seq, ∀ p ∈ pats, containsSub p s = false) :
    ∀ seq ∈ clean_decoded_batch db pats, ∀ s ∈ seq, ∀ p ∈ pats,
      containsSub p s = false := by
  intro outSeq houtSeq s hs p hp
  rw [clean_decoded_batch, List.mem_map] at houtSeq
  obtain ⟨seq, hseq, hout⟩ := houtSeq
  rw [← hout] at hs
  rw [List.mem_filterMap] at hs
  obtain ⟨subseq, hsub, heq⟩ := hs
  simp only at heq
  by_cases hemp : (cleanOne pats subseq).isEmpty
  · rw [if_pos hemp] at heq
    exact absurd heq (by simp)
  · rw [if_neg hemp] at heq
    have hsval : s = cleanOne pats subseq := by
      injection heq with h'
      exact h'.symm
    by_contra hne
    have htrue : containsSub p s = true := by
      cases hcs : containsSub p s with
      | false => exact absurd hcs hne
      | true => rfl
    rw [hsval, cleanOne, subAlt_eq_self pats subseq (h seq hseq subseq hsub)] at htrue
    have := containsSub_of_pyStrip p subseq htrue
    rw [h seq hseq subseq hsub p hp] at this
    exact absurd this (by simp)

/-- Witness for C4 (amended) at a concrete input: the decoded string
"hi" contains no special token, and its cleaned output (itself, which
the theorem reaches as a member of the cleaned batch) contains none
either. -/
theorem clean_decoded_batch_no_meta_witness :
    containsSub ['P'] ['h', 'i'] = false :=
  clean_decoded_batch_no_meta [[['h', 'i']]] [['P']] (by decide) [['h', 'i']]
    (by simp [clean_decoded_batch, cleanOne, subAlt, startsWithList, pyStrip, isPySpace])
    ['h', 'i'] (by decide) ['P'] (by decide)

/-- C4 counterexample: with special token "ab", cleaning the decoded
string "aabb" removes the middle occurrence and splices the surrounding
characters into a fresh "ab", so the cleaned output still contains the
special token. -/
theorem clean_decoded_batch_meta_cex :
    clean_decoded_batch [[['a', 'a', 'b', 'b']]] [['a', 'b']] = [[['a', 'b']]] ∧
    containsSub ['a', 'b']
      (((clean_decoded_batch [[['a', 'a', 'b', 'b']]] [['a', 'b']]).getD 0 []).getD 0 [])
      = true := by
  have heval : clean_decoded_batch [[['a', 'a', 'b', 'b']]] [['a', 'b']]
      = [[['a', 'b']]] := by
    simp [clean_decoded_batch, cleanOne, subAlt, startsWithList, pyStrip, isPySpace]
  exact ⟨heval, by rw [heval]; decide⟩

/-- C9: `clean_decoded_batch` keeps one inner tuple per input sequence
(the outer length is preserved and each inner tuple is the list of
cleaned subsequences with the empty ones dropped), and an inner tuple
of the output can have fewer elements than its input, as the concrete
instance shows. -/
theorem clean_decoded_batch_structure (db : List (List (List Char)))
    (pats : List (List Char)) :
    (clean_decoded_batch db pats).length = db.length ∧
    clean_decoded_batch db pats =
      db.map (fun seq => (seq.map (cleanOne pats)).filter (fun s => !s.isEmpty)) ∧
    ((clean_decoded_batch [[['P']]] [['P']]).getD 0 []).length <
      (([[['P']]] : List (List (List Char))).getD 0 []).length := by
  refine ⟨by simp [clean_decoded_batch], ?_, ?_⟩
  · rw [clean_decoded_batch]
    congr 1
    funext seq
    induction seq with
    | nil => rfl
    | cons x t ih =>
      simp only [List.filterMap_cons, List.map_cons, List.filter_cons]
      by_cases h : (cleanOne pats x).isEmpty
      · simp only [h]
        simp only [if_true, Bool.not_true, Bool.false_eq_true, if_false]
        exact ih
      · simp only [h, Bool.false_eq_true, if_false]
        rw [ih]
        simp
  · have heval : clean_decoded_batch [[['P']]] [['P']] = [[]] := by
      simp [clean_decoded_batch, cleanOne, subAlt, startsWithList, pyStrip, isPySpace]
    rw [heval]
    decide

/-! ## get_predictions: claims C2 and C7 -/

theorem clean_decoded_batch_length (db : List (List (List Char)))
    (pats : List (List Char)) : (clean_decoded_batch db pats).length = db.length := by
  simp [clean_decoded_batch]

theorem decode_bart_input_length (ids : List (List Int)) (tok : BartTok) :
    (decode_bart_input ids tok).length = ids.length := by
  simp [decode_bart_input]

theorem length_flatten_map {α β : Type} (f : α → List β) (g : α → Nat) (l : List α)
    (h : ∀ x ∈ l, (f x).length = g x) :
    ((l.map f).flatten).length = (l.map g).sum := by
  induction l with
  | nil => rfl
  | cons x t ih =>
    simp only [List.map_cons, List.flatten_cons, List.length_append, List.sum_cons]
    rw [h x (by simp), ih (fun y hy => h y (by simp [hy]))]

/-- C2 (amended): `get_predictions` yields, in dataset order, exactly
one tuple of strings per dataset example — the cleaned decoded input
parts followed by the cleaned decoded answer parts of that example —
provided the model returns one row of start scores and one row of end
scores per input row; the yielded tuple need not consist of exactly
three strings (see the counterexample). -/
theorem get_predictions_one_per_example
    (model : Batch → List (List Int) × List (List Int)) (dl : List Batch)
    (tok : BartTok) (nm : String)
    (h : ∀ batch ∈ dl, (model batch).1.length = (batchGet batch nm).length ∧
      (model batch).2.length = (batchGet batch nm).length) :
    get_predictions model dl tok nm =
      (dl.map (fun batch =>
        List.zipWith (fun di da => di ++ da)
          (clean_decoded_batch (decode_bart_input (batchGet batch nm) tok)
            [tok.cls_token, tok.pad_token, tok.sep_token])
          (clean_decoded_batch
            (decode_bart_input
              (extract_answer (batchGet batch nm) (model batch).1 (model batch).2
                tok.pad_token_id) tok)
            [tok.cls_token, tok.pad_token, tok.sep_token]))).flatten ∧
    (get_predictions model dl tok nm).length =
      (dl.map (fun batch => (batchGet batch nm).length)).sum := by
  refine ⟨rfl, ?_⟩
  rw [show get_predictions model dl tok nm =
      (dl.map (fun batch =>
        List.zipWith (fun di da => di ++ da)
          (clean_decoded_batch (decode_bart_input (batchGet batch nm) tok)
            [tok.cls_token, tok.pad_token, tok.sep_token])
          (clean_decoded_batch
            (decode_bart_input
              (extract_answer (batchGet batch nm) (model batch).1 (model batch).2
                tok.pad_token_id) tok)
            [tok.cls_token, tok.pad_token, tok.sep_token]))).flatten from rfl]
  apply length_flatten_map
  intro batch hb
  obtain ⟨h1, h2⟩ := h batch hb
  simp only [List.length_zipWith, clean_decoded_batch_length, decode_bart_input_length]
  rw [extract_answer_length _ _ _ _ h1 h2]
  omega

/-- Witness for C2 (amended) at a concrete one-batch input with one
example row and well-shaped model output. -/
theorem get_predictions_one_per_example_witness :
    get_predictions (fun _ => ([[9, 0]], [[0, 9]])) [[("input_ids", [[5, 6]])]]
        ⟨1, ['C'], ['P'], ['S'], fun _ => ['Q']⟩ "input_ids" =
      (([[("input_ids", [[5, 6]])]] : List Batch).map (fun batch =>
        List.zipWith (fun di da => di ++ da)
          (clean_decoded_batch
            (decode_bart_input (batchGet batch "input_ids")
              ⟨1, ['C'], ['P'], ['S'], fun _ => ['Q']⟩)
            [(⟨1, ['C'], ['P'], ['S'], fun _ => ['Q']⟩ : BartTok).cls_token,
             (⟨1, ['C'], ['P'], ['S'], fun _ => ['Q']⟩ : BartTok).pad_token,
             (⟨1, ['C'], ['P'], ['S'], fun _ => ['Q']⟩ : BartTok).sep_token])
          (clean_decoded_batch
            (decode_bart_input
              (extract_answer (batchGet batch "input_ids")
                ((fun (_ : Batch) => (([[9, 0]], [[0, 9]]) :
                  List (List Int) × List (List Int))) batch).1
                ((fun (_ : Batch) => (([[9, 0]], [[0, 9]]) :
                  List (List Int) × List (List Int))) batch).2
                (⟨1, ['C'], ['P'], ['S'], fun _ => ['Q']⟩ : BartTok).pad_token_id)
              ⟨1, ['C'], ['P'], ['S'], fun _ => ['Q']⟩)
            [(⟨1, ['C'], ['P'], ['S'], fun _ => ['Q']⟩ : BartTok).cls_token,
             (⟨1, ['C'], ['P'], ['S'], fun _ => ['Q']⟩ : BartTok).pad_token,
             (⟨1, ['C'], ['P'], ['S'], fun _ => ['Q']⟩ : BartTok).sep_token]))).flatten ∧
    (get_predictions (fun _ => ([[9, 0]], [[0, 9]])) [[("input_ids", [[5, 6]])]]
        ⟨1, ['C'], ['P'], ['S'], fun _ => ['Q']⟩ "input_ids").length =
      (([[("input_ids", [[5, 6]])]] : List Batch).map
        (fun batch => (batchGet batch "input_ids").length)).sum :=
  get_predictions_one_per_example (fun _ => ([[9, 0]], [[0, 9]]))
    [[("input_ids", [[5, 6]])]] ⟨1, ['C'], ['P'], ['S'], fun _ => ['Q']⟩ "input_ids"
    (by decide)

/-- C2 counterexample: a batch whose single decoded input and decoded
answer clean to empty tuples yields a tuple of 0 strings (not 3): the
decoder maps every row to the pad token string, which the cleaner
removes entirely. -/
theorem get_predictions_triplet_cex :
    get_predictions (fun _ => ([[9, 0]], [[0, 9]])) [[("input_ids", [[5, 6]])]]
        ⟨1, ['C'], ['P'], ['S'], fun _ => ['P']⟩ "input_ids" = [[]] ∧
    ((get_predictions (fun _ => ([[9, 0]], [[0, 9]])) [[("input_ids", [[5, 6]])]]
        ⟨1, ['C'], ['P'], ['S'], fun _ => ['P']⟩ "input_ids").getD 0 []).length ≠ 3 := by
  have heval : get_predictions (fun _ => ([[9, 0]], [[0, 9]]))
      [[("input_ids", [[5, 6]])]] ⟨1, ['C'], ['P'], ['S'], fun _ => ['P']⟩
      "input_ids" = [[]] := by
    simp [get_predictions, batchGet, extract_answer, argmax, argmaxFrom, arange,
      decode_bart_input, splitOnStr, startsWithList, clean_decoded_batch, cleanOne,
      subAlt, pyStrip, isPySpace]
  exact ⟨heval, by rw [heval]; decide⟩

/-- C7: the inference pass is deterministic: with the model a fixed
function, and the data loader, tokenizer and input-ids key equal, two
runs of `get_predictions` produce identical sequences of output
tuples. -/
theorem get_predictions_deterministic
    (m₁ m₂ : Batch → List (List Int) × List (List Int)) (dl₁ dl₂ : List Batch)
    (t₁ t₂ : BartTok) (n₁ n₂ : String) (hm : m₁ = m₂) (hdl : dl₁ = dl₂)
    (ht : t₁ = t₂) (hn : n₁ = n₂) :
    get_predictions m₁ dl₁ t₁ n₁ = get_predictions m₂ dl₂ t₂ n₂ := by
  rw [hm, hdl, ht, hn]

/-- Witness for C7 at a concrete input: two identical runs agree. -/
theorem get_predictions_deterministic_witness :
    get_predictions (fun _ => ([[9, 0]], [[0, 9]])) [[("input_ids", [[5, 6]])]]
        ⟨1, ['C'], ['P'], ['S'], fun _ => ['Q']⟩ "input_ids" =
      get_predictions (fun _ => ([[9, 0]], [[0, 9]])) [[("input_ids", [[5, 6]])]]
        ⟨1, ['C'], ['P'], ['S'], fun _ => ['Q']⟩ "input_ids" :=
  get_predictions_deterministic _ _ _ _ _ _ _ _ rfl rfl rfl rfl

/-! ## Chunking lemmas: the tokenization chunks and the DataLoader
batches are formed with the same batch size, so they align -/

theorem chunkList_nil {α : Type} (k : Nat) : chunkList k ([] : List α) = [] := by
  rw [chunkList]

theorem chunkList_cons {α : Type} (k' : Nat) (x : α) (rest : List α) :
    chunkList (k' + 1) (x :: rest) =
      (x :: rest.take k') :: chunkList (k' + 1) (rest.drop k') := by
  rw [chunkList]

/-- Chunking a list that starts with a full chunk peels that chunk
off. -/
theorem chunkList_append_exact {α : Type} (k : Nat) (a b : List α)
    (ha : a.length = k) (hk : 0 < k) : chunkList k (a ++ b) = a :: chunkList k b := by
  cases a with
  | nil => simp at ha; omega
  | cons x a' =>
    cases k with
    | zero => omega
    | succ k' =>
      have ha' : a'.length = k' := by simpa using ha
      subst ha'
      rw [List.cons_append, chunkList_cons, List.take_left, List.drop_left]

/-- Chunking a short non-empty list gives that list as the only
chunk. -/
theorem chunkList_short {α : Type} (k : Nat) (a : List α) (hne : a ≠ [])
    (hle : a.length ≤ k) : chunkList k a = [a] := by
  cases a with
  | nil => exact absurd rfl hne
  | cons x a' =>
    cases k with
    | zero => rw [chunkList]
    | succ k' =>
      have h1 : a'.length ≤ k' := by simp at hle; omega
      rw [chunkList_cons, List.take_of_length_le h1, List.drop_eq_nil_of_le h1,
        chunkList_nil]

/-- Alignment of the two chunkings: mapping a length-preserving
function over the chunks of `xs`, flattening (the mapped dataset), and
chunking again with the same size recovers exactly the mapped
chunks. -/
theorem chunkList_flatten_map {α β : Type} (k : Nat) (f : List α → List β)
    (xs : List α) (hk : 0 < k) (hf : ∀ l, (f l).length = l.length) :
    chunkList k (((chunkList k xs).map f).flatten) = (chunkList k xs).map f := by
  have key : ∀ n (ys : List α), ys.length ≤ n →
      chunkList k (((chunkList k ys).map f).flatten) = (chunkList k ys).map f := by
    intro n
    induction n with
    | zero =>
      intro ys hy
      have : ys = [] := by
        cases ys with
        | nil => rfl
        | cons z t => simp at hy
      subst this
      rw [chunkList_nil]
      simp [chunkList_nil]
    | succ n ihn =>
      intro ys hy
      cases ys with
      | nil =>
        rw [chunkList_nil]
        simp [chunkList_nil]
      | cons x rest =>
        cases k with
        | zero => omega
        | succ k' =>
          rw [chunkList_cons]
          simp only [List.map_cons, List.flatten_cons]
          by_cases hcase : k' ≤ rest.length
          · have hlen : (f (x :: rest.take k')).length = k' + 1 := by
              rw [hf]
              simp [List.length_take]
              omega
            rw [chunkList_append_exact (k' + 1) _ _ hlen (by omega)]
            congr 1
            apply ihn
            simp only [List.length_drop]
            simp at hy
            omega
          · have hrest : rest.drop k' = [] := List.drop_eq_nil_of_le (by omega)
            rw [hrest, chunkList_nil]
            simp only [List.map_nil, List.flatten_nil, List.append_nil]
            have hne : f (x :: rest.take k') ≠ [] := by
              intro h0
              have := hf (x :: rest.take k')
              rw [h0] at this
              simp at this
            have hle : (f (x :: rest.take k')).length ≤ k' + 1 := by
              rw [hf]
              simp [List.length_take]
            rw [chunkList_short (k' + 1) _ hne hle]
  exact key xs.length xs le_rfl

/-- Every element of a list is bounded by the running maximum. -/
theorem le_foldr_max (l : List Nat) (x : Nat) (hx : x ∈ l) :
    x ≤ l.foldr Nat.max 0 := by
  induction l with
  | nil => simp at hx
  | cons y t ih =>
    rcases List.mem_cons.mp hx with h | h
    · subst h
      exact Nat.le_max_left _ _
    · exact Nat.le_trans (ih h) (Nat.le_max_right _ _)

/-- The running maximum of a bounded list is bounded. -/
theorem foldr_max_le (l : List Nat) (L : Nat) (h : ∀ x ∈ l, x ≤ L) :
    l.foldr Nat.max 0 ≤ L := by
  induction l with
  | nil => simp
  | cons y t ih =>
    simp only [List.foldr_cons]
    exact Nat.max_le.mpr ⟨h y (by simp), ih (fun x hx => h x (by simp [hx]))⟩

/-! ## tokenize_dataset: claims C5 and C10 -/

/-- C5: with a positive batch size (as `check_positive_int` enforces)
and `max_seq_length = L`, every mini-batch yielded by the `DataLoader`
returned by `tokenize_dataset` has one common length for all its
token-id sequences and attention masks, and that length is at most
`L`. -/
theorem tokenize_dataset_batch_uniform (ds : List Row) (cols : List String)
    (tok : HFTokenizer) (bs L : Nat) (batches : List (List TokRow))
    (hbs : 0 < bs) (h : tokenize_dataset ds cols tok bs L = Except.ok batches) :
    ∀ batch ∈ batches, ∃ m, m ≤ L ∧ ∀ row ∈ batch,
      row.1.length = m ∧ row.2.length = m := by
  rw [tokenize_dataset] at h
  by_cases hc : cols.any (fun c => tok.encodingKeys.contains c)
  · rw [if_pos hc] at h
    exact absurd h (by simp)
  · rw [if_neg hc] at h
    rw [chunkList_flatten_map bs _ ds hbs (fun l => by simp [tokenizeChunk])] at h
    have hbatches : (chunkList bs ds).map (fun chunk =>
        tokenizeChunk tok L (chunk.map (fun row => cols.map (fun c => rowGet row c))))
        = batches := by
      injection h
    intro batch hbatch
    rw [← hbatches, List.mem_map] at hbatch
    obtain ⟨chunk, _hchunk, hg⟩ := hbatch
    rw [tokenizeChunk] at hg
    refine ⟨(((chunk.map (fun row => cols.map (fun c => rowGet row c))).map
      (fun t => (tok.encode t).take L)).map List.length).foldr Nat.max 0, ?_, ?_⟩
    · apply foldr_max_le
      intro x hx
      rw [List.mem_map] at hx
      obtain ⟨t, _ht, hxlen⟩ := hx
      rw [List.mem_map] at _ht
      obtain ⟨t0, _ht0, ht⟩ := _ht
      rw [← hxlen, ← ht]
      simp [List.length_take]
    · intro row hrow
      rw [← hg, List.mem_map] at hrow
      obtain ⟨t, ht, hrowval⟩ := hrow
      have htle : t.length ≤ (((chunk.map (fun row => cols.map (fun c => rowGet row c))).map
          (fun t => (tok.encode t).take L)).map List.length).foldr Nat.max 0 :=
        le_foldr_max _ _ (List.mem_map.mpr ⟨t, ht, rfl⟩)
      rw [← hrowval]
      constructor
      · simp only [List.length_append, List.length_replicate]
        omega
      · simp only [List.length_append, List.length_replicate]
        omega

/-- Witness for C5 at a concrete input: one example, batch size 1, max
length 3; the single batch is uniform of length 1. -/
theorem tokenize_dataset_batch_uniform_witness :
    ∃ m, m ≤ 3 ∧ ∀ row ∈ [(([7] : List Int), ([1] : List Nat))],
      row.1.length = m ∧ row.2.length = m :=
  tokenize_dataset_batch_uniform [[("q", ['a'])]] ["q"]
    ⟨fun _ => [7], ["input_ids", "attention_mask"], 1⟩ 1 3
    [[(([7] : List Int), ([1] : List Nat))]] (by decide)
    (by simp [tokenize_dataset, chunkList, tokenizeChunk, rowGet])
    [(([7] : List Int), ([1] : List Nat))] (by decide)

/-- C10: `tokenize_dataset` fails with `ValueError` (modelled as
`Except.error`) exactly when some name in `text_col_names` is one of
the column names the tokenizer produces; the check is performed before
any tokenization, and the pure embedding of `Dataset.map` never
modifies the input dataset. -/
theorem tokenize_dataset_invalid_cols (ds : List Row) (cols : List String)
    (tok : HFTokenizer) (bs L : Nat) :
    (∃ msg, tokenize_dataset ds cols tok bs L = Except.error msg) ↔
      ∃ c ∈ cols, c ∈ tok.encodingKeys := by
  constructor
  · intro hmsg
    obtain ⟨msg, hmsg⟩ := hmsg
    rw [tokenize_dataset] at hmsg
    by_cases hc : cols.any (fun c => tok.encodingKeys.contains c)
    · rw [List.any_eq_true] at hc
      obtain ⟨c, hcc, hck⟩ := hc
      exact ⟨c, hcc, by simpa using hck⟩
    · rw [if_neg hc] at hmsg
      exact absurd hmsg (by simp)
  · intro hex
    obtain ⟨c, hcc, hck⟩ := hex
    have hc : cols.any (fun c => tok.encodingKeys.contains c) = true :=
      List.any_eq_true.mpr ⟨c, hcc, by simpa using hck⟩
    exact ⟨"Invalid text column names", by rw [tokenize_dataset, if_pos hc]⟩

/-! ## The dataset command-line argument: claim C3 -/

/-- C3 (the code evaluated at a failing input): the argument parser
applies the library function `load_dataset` itself — not the module's
`load_jsonl_dataset` — to the dataset path, so at path "data.jsonl"
the performed call passes the path as the builder argument with no
`data_files` and no `split`, and differs from the jsonlines loader
call that the parser's help text and the unused `load_jsonl_dataset`
helper document. -/
theorem qa_args_loader_mismatch :
    qa_args_dataset_conversion "data.jsonl" ≠ load_jsonl_dataset "data.jsonl" ∧
    (qa_args_dataset_conversion "data.jsonl").path = "data.jsonl" ∧
    (qa_args_dataset_conversion "data.jsonl").data_files = [] ∧
    (qa_args_dataset_conversion "data.jsonl").split = none ∧
    (load_jsonl_dataset "data.jsonl").path = "json" ∧
    (load_jsonl_dataset "data.jsonl").data_files = ["data.jsonl"] ∧
    (load_jsonl_dataset "data.jsonl").split = some "train" := by
  refine ⟨?_, rfl, rfl, rfl, rfl, rfl, rfl⟩
  intro hcontra
  have : (qa_args_dataset_conversion "data.jsonl").path =
      (load_jsonl_dataset "data.jsonl").path := by rw [hcontra]
  simp [qa_args_dataset_conversion, load_jsonl_dataset] at this

end TransformerQA
